import Mathlib

/-!
Verification of the collapsing engine (`CollapsingBuilder` in
`src/model/collapse.rs`).  The engine wraps an append-only sequence
builder, staging weak and ignorant items until their fate is decided by
a later supportive, destructive or finishing event.

The embedding is shallow: the Rust struct becomes a Lean structure, the
opaque style chain becomes a type parameter `S`, the generic item type
becomes a type parameter `T`, and the `PartialOrd` bound on `T` becomes
an explicit comparison function `pcmp : T → T → Option Ordering`
(mirroring `partial_cmp`; `a > b` in Rust is `pcmp a b = some .gt`).
The `u8` weakness is embedded as `Nat`: the code only compares
weaknesses, never computes with them, so the embedding is faithful.
-/

namespace Collapse

/-- Classification of the last non-ignorant item (Rust `enum Last`). -/
inductive Last : Type
  | Weak : Last
  | Destructive : Last
  | Supportive : Last
deriving DecidableEq, Repr

/-- The collapsing engine (Rust `struct CollapsingBuilder`).  `builder` is
the wrapped append-only sequence builder, modelled as the list of
committed `(item, style)` pairs; `staged` holds the deferred entries,
`some w` marking a weak entry of weakness `w` and `none` an ignorant
entry; `last` is the classification state. -/
structure CollapsingBuilder (T S : Type) : Type where
  builder : List (T × S)
  staged : List (T × S × Option Nat)
  last : Last
deriving DecidableEq, Repr

/-- `CollapsingBuilder::new`: empty builder, empty staging buffer, state
`Destructive`. -/
def new (T S : Type) : CollapsingBuilder T S :=
  ⟨[], [], Last.Destructive⟩

/-- First index satisfying a predicate (Rust `Iterator::position`). -/
def position (p : α → Bool) : List α → Option Nat
  | [] => none
  | a :: l => if p a then some 0 else (position p l).map (fun n => n + 1)

/-- Removal of the element at an index (Rust `Vec::remove`; total here,
the engine only calls it at an index returned by `position`). -/
def removeAt : List α → Nat → List α
  | [], _ => []
  | _ :: l, 0 => l
  | a :: l, n + 1 => a :: removeAt l n

/-- The scan predicate inside `CollapsingBuilder::weak`: a staged entry
loses to the new item if it is weak and either the new weakness is
strictly smaller, or weaknesses are equal and the new item compares
strictly greater. -/
def contestPred (pcmp : T → T → Option Ordering) (item : T) (weakness : Nat)
    (e : T × S × Option Nat) : Bool :=
  match e.2.2 with
  | some pw => decide (weakness < pw ∨ (weakness = pw ∧ pcmp item e.1 = some Ordering.gt))
  | none => false

/-- `CollapsingBuilder::weak`.  Dropped outright after a destructive
item; in state `Weak` it may displace the staged weak entry; otherwise
it is staged and the state becomes `Weak`. -/
def weak (pcmp : T → T → Option Ordering) (b : CollapsingBuilder T S)
    (item : T) (styles : S) (weakness : Nat) : CollapsingBuilder T S :=
  if b.last = Last.Destructive then b
  else if b.last = Last.Weak then
    match position (contestPred pcmp item weakness) b.staged with
    | some i =>
        ⟨b.builder, removeAt b.staged i ++ [(item, styles, some weakness)], Last.Weak⟩
    | none => b
  else
    ⟨b.builder, b.staged ++ [(item, styles, some weakness)], Last.Weak⟩

/-- Projection of a staged entry to the pair pushed to the builder. -/
def stagedPair (e : T × S × Option Nat) : T × S :=
  (e.1, e.2.1)

/-- `CollapsingBuilder::flush`: drain the staged entries into the
builder, keeping weak entries only when `supportive` is true. -/
def flush (b : CollapsingBuilder T S) (supportive : Bool) : CollapsingBuilder T S :=
  ⟨b.builder ++ (b.staged.filter (fun e => supportive || e.2.2.isNone)).map stagedPair,
    [], b.last⟩

/-- `CollapsingBuilder::destructive`: flush keeping only ignorant
entries, commit the item, state becomes `Destructive`. -/
def destructive (b : CollapsingBuilder T S) (item : T) (styles : S) :
    CollapsingBuilder T S :=
  let f := flush b false
  ⟨f.builder ++ [(item, styles)], f.staged, Last.Destructive⟩

/-- `CollapsingBuilder::supportive`: flush everything staged, commit the
item, state becomes `Supportive`. -/
def supportive (b : CollapsingBuilder T S) (item : T) (styles : S) :
    CollapsingBuilder T S :=
  let f := flush b true
  ⟨f.builder ++ [(item, styles)], f.staged, Last.Supportive⟩

/-- `CollapsingBuilder::ignorant`: stage the entry with a `none` marker;
nothing else changes. -/
def ignorant (b : CollapsingBuilder T S) (item : T) (styles : S) :
    CollapsingBuilder T S :=
  ⟨b.builder, b.staged ++ [(item, styles, none)], b.last⟩

/-- `CollapsingBuilder::is_empty`. -/
def isEmpty (b : CollapsingBuilder T S) : Bool :=
  b.builder.isEmpty && b.staged.isEmpty

/-- `CollapsingBuilder::items`: committed items followed by staged ones. -/
def items (b : CollapsingBuilder T S) : List T :=
  b.builder.map Prod.fst ++ b.staged.map (fun e => e.1)

/-- `CollapsingBuilder::finish`: flush keeping only ignorant entries,
then finalize the wrapped builder.  The finished sequence is modelled as
the final list of committed `(item, style)` pairs; the common style
prefix computed by the external builder is out of scope. -/
def finish (b : CollapsingBuilder T S) : List (T × S) :=
  (flush b false).builder

/-- One engine call, as data, so that call sequences are lists. -/
inductive Cmd (T S : Type) : Type
  | weak (item : T) (styles : S) (weakness : Nat) : Cmd T S
  | destructive (item : T) (styles : S) : Cmd T S
  | supportive (item : T) (styles : S) : Cmd T S
  | ignorant (item : T) (styles : S) : Cmd T S
deriving DecidableEq, Repr

/-- Interpret one call on an engine state. -/
def run (pcmp : T → T → Option Ordering) (b : CollapsingBuilder T S) :
    Cmd T S → CollapsingBuilder T S
  | Cmd.weak item styles weakness => weak pcmp b item styles weakness
  | Cmd.destructive item styles => destructive b item styles
  | Cmd.supportive item styles => supportive b item styles
  | Cmd.ignorant item styles => ignorant b item styles

/-- Run a call sequence from a given state. -/
def execFrom (pcmp : T → T → Option Ordering) (b : CollapsingBuilder T S)
    (cmds : List (Cmd T S)) : CollapsingBuilder T S :=
  cmds.foldl (run pcmp) b

/-- Run a call sequence from a fresh engine. -/
def exec (pcmp : T → T → Option Ordering) (cmds : List (Cmd T S)) :
    CollapsingBuilder T S :=
  execFrom pcmp (new T S) cmds

/-- The `(item, style)` pair a call submits. -/
def payload : Cmd T S → T × S
  | Cmd.weak item styles _ => (item, styles)
  | Cmd.destructive item styles => (item, styles)
  | Cmd.supportive item styles => (item, styles)
  | Cmd.ignorant item styles => (item, styles)

/-- Whether a call is a `weak` call. -/
def isWeakCmd : Cmd T S → Bool
  | Cmd.weak _ _ _ => true
  | _ => false

/-- Whether a call is an `ignorant` call. -/
def isIgnorantCmd : Cmd T S → Bool
  | Cmd.ignorant _ _ => true
  | _ => false

/-- Number of staged entries carrying a weakness marker. -/
def weakCount (staged : List (T × S × Option Nat)) : Nat :=
  (staged.filter (fun e => e.2.2.isSome)).length

/-- The ignorant part of the staging buffer, as builder pairs. -/
def nonePairs (staged : List (T × S × Option Nat)) : List (T × S) :=
  (staged.filter (fun e => e.2.2.isNone)).map stagedPair

/-- The pairs `finish` would commit from the current state: committed
pairs followed by the ignorant part of the staging buffer. -/
def kept (b : CollapsingBuilder T S) : List (T × S) :=
  b.builder ++ nonePairs b.staged

/-- Every pair currently held by the engine, committed or staged. -/
def contents (b : CollapsingBuilder T S) : List (T × S) :=
  b.builder ++ b.staged.map stagedPair

/-- The weak-contest-relevant projection of a state: the staged weak
entries (item and weakness, in order) and the classification state. -/
def weakPart (b : CollapsingBuilder T S) : List (T × Nat) × Last :=
  (b.staged.filterMap (fun e => e.2.2.map (fun w => (e.1, w))), b.last)

/-- Concrete item type for the executable scenarios, standing in for the
document-flow payloads of the tests (break markers, content nodes,
spacing amounts). -/
inductive Item : Type
  | brk : Item
  | node : Nat → Item
  | space : Nat → Item
deriving DecidableEq, Repr

/-- Partial comparison on `Item`: amounts of the same kind compare
numerically, items of different kinds are incomparable (mirroring a
derived `PartialOrd` on a payload enum). -/
def itemCmp : Item → Item → Option Ordering
  | Item.space a, Item.space b => some (compare a b)
  | Item.node a, Item.node b => some (compare a b)
  | Item.brk, Item.brk => some Ordering.eq
  | _, _ => none

/-! Helper lemmas about `position` and `removeAt`. -/

theorem position_eq_none (p : α → Bool) (l : List α) (h : ∀ a ∈ l, p a = false) :
    position p l = none := by
  induction l with
  | nil => rfl
  | cons a t ih =>
      simp only [position, h a (List.mem_cons_self a t), if_false, Bool.false_eq_true, if_neg]
      rw [ih fun x hx => h x (List.mem_cons_of_mem a hx)]
      rfl

theorem position_append_left (p : α → Bool) (pre l : List α)
    (h : ∀ a ∈ pre, p a = false) :
    position p (pre ++ l) = (position p l).map (fun n => n + pre.length) := by
  induction pre with
  | nil => simp [Option.map_id]
  | cons a t ih =>
      simp only [List.cons_append, position, h a (List.mem_cons_self a t),
        Bool.false_eq_true, if_false, List.append_eq]
      rw [ih fun x hx => h x (List.mem_cons_of_mem a hx)]
      cases position p l with
      | none => rfl
      | some k =>
          show some (k + t.length + 1) = some (k + (a :: t).length)
          simp only [Option.some.injEq, List.length_cons]
          omega

theorem position_append_some (p : α → Bool) (l l' : List α) (i : Nat)
    (h : position p l = some i) : position p (l ++ l') = some i := by
  induction l generalizing i with
  | nil => simp [position] at h
  | cons a t ih =>
      simp only [position] at h
      simp only [List.cons_append, position]
      by_cases ha : p a = true
      · simp [ha] at h ⊢; exact h
      · simp [ha] at h ⊢
        obtain ⟨j, hj, rfl⟩ := h
        exact ⟨j, ih j hj, rfl⟩

theorem position_lt_length (p : α → Bool) (l : List α) (i : Nat)
    (h : position p l = some i) : i < l.length := by
  induction l generalizing i with
  | nil => simp [position] at h
  | cons a t ih =>
      simp only [position] at h
      by_cases ha : p a = true
      · simp only [ha, if_true, Option.some.injEq] at h
        simp only [← h, List.length_cons]
        omega
      · simp [ha] at h
        obtain ⟨j, hj, rfl⟩ := h
        have := ih j hj
        simp only [List.length_cons]
        omega

theorem removeAt_append_of_lt (l l' : List α) (i : Nat) (h : i < l.length) :
    removeAt (l ++ l') i = removeAt l i ++ l' := by
  induction l generalizing i with
  | nil => simp at h
  | cons a t ih =>
      cases i with
      | zero => rfl
      | succ j =>
          simp only [List.length_cons] at h
          simp only [List.cons_append, removeAt, List.append_eq, ih j (by omega)]

theorem removeAt_at_pivot (pre post : List α) (x : α) :
    removeAt (pre ++ x :: post) pre.length = pre ++ post := by
  induction pre with
  | nil => rfl
  | cons a t ih =>
      simp only [List.cons_append, List.length_cons, removeAt, List.append_eq, ih]

theorem removeAt_sublist (l : List α) (i : Nat) : (removeAt l i).Sublist l := by
  induction l generalizing i with
  | nil => exact List.Sublist.refl _
  | cons a t ih =>
      cases i with
      | zero => exact List.sublist_cons_self a t
      | succ j => exact List.Sublist.cons₂ a (ih j)

theorem filter_removeAt_of_disjoint {p q : α → Bool} (hpq : ∀ a, p a = true → q a = false)
    (l : List α) (i : Nat) (h : position p l = some i) :
    (removeAt l i).filter q = l.filter q := by
  induction l generalizing i with
  | nil => simp [position] at h
  | cons a t ih =>
      simp only [position] at h
      by_cases ha : p a = true
      · simp only [ha, if_true, Option.some.injEq] at h
        subst h
        simp [removeAt, List.filter_cons, hpq a ha]
      · simp [ha] at h
        obtain ⟨j, hj, rfl⟩ := h
        simp only [removeAt, List.filter_cons, ih j hj]

theorem length_filter_removeAt {p q : α → Bool} (hpq : ∀ a, p a = true → q a = true)
    (l : List α) (i : Nat) (h : position p l = some i) :
    ((removeAt l i).filter q).length + 1 = (l.filter q).length := by
  induction l generalizing i with
  | nil => simp [position] at h
  | cons a t ih =>
      simp only [position] at h
      by_cases ha : p a = true
      · simp only [ha, if_true, Option.some.injEq] at h
        subst h
        simp [removeAt, List.filter_cons, hpq a ha]
      · simp [ha] at h
        obtain ⟨j, hj, rfl⟩ := h
        simp only [removeAt, List.filter_cons]
        have hlen := ih j hj
        by_cases hq : q a = true <;>
          simp only [hq, if_true, Bool.false_eq_true, if_false, List.length_cons] <;>
          omega

/-! Lemmas about the engine operations. -/

theorem contestPred_of_none (pcmp : T → T → Option Ordering) (item : T) (weakness : Nat)
    (e : T × S × Option Nat) (h : e.2.2 = none) :
    contestPred pcmp item weakness e = false := by
  obtain ⟨a, s, o⟩ := e
  simp only at h
  subst h
  rfl

theorem contestPred_isSome (pcmp : T → T → Option Ordering) (item : T) (weakness : Nat)
    (e : T × S × Option Nat) (h : contestPred pcmp item weakness e = true) :
    e.2.2.isSome = true := by
  obtain ⟨a, s, o⟩ := e
  cases o with
  | none => simp [contestPred] at h
  | some pw => rfl

theorem contestPred_isNone_false (pcmp : T → T → Option Ordering) (item : T) (weakness : Nat)
    (e : T × S × Option Nat) (h : contestPred pcmp item weakness e = true) :
    e.2.2.isNone = false := by
  obtain ⟨a, s, o⟩ := e
  cases o with
  | none => simp [contestPred] at h
  | some pw => rfl

theorem weak_of_destructive_state (pcmp : T → T → Option Ordering)
    (b : CollapsingBuilder T S) (item : T) (styles : S) (weakness : Nat)
    (h : b.last = Last.Destructive) :
    weak pcmp b item styles weakness = b := by
  simp [weak, h]

theorem weak_of_supportive_state (pcmp : T → T → Option Ordering)
    (b : CollapsingBuilder T S) (item : T) (styles : S) (weakness : Nat)
    (h : b.last = Last.Supportive) :
    weak pcmp b item styles weakness =
      ⟨b.builder, b.staged ++ [(item, styles, some weakness)], Last.Weak⟩ := by
  simp [weak, h]

theorem weak_of_weak_state_found (pcmp : T → T → Option Ordering)
    (b : CollapsingBuilder T S) (item : T) (styles : S) (weakness : Nat) (i : Nat)
    (h : b.last = Last.Weak)
    (hpos : position (contestPred pcmp item weakness) b.staged = some i) :
    weak pcmp b item styles weakness =
      ⟨b.builder, removeAt b.staged i ++ [(item, styles, some weakness)], Last.Weak⟩ := by
  simp [weak, h, hpos]

theorem weak_of_weak_state_lost (pcmp : T → T → Option Ordering)
    (b : CollapsingBuilder T S) (item : T) (styles : S) (weakness : Nat)
    (h : b.last = Last.Weak)
    (hpos : position (contestPred pcmp item weakness) b.staged = none) :
    weak pcmp b item styles weakness = b := by
  simp [weak, h, hpos]

theorem destructive_eq (b : CollapsingBuilder T S) (item : T) (styles : S) :
    destructive b item styles =
      ⟨b.builder ++ nonePairs b.staged ++ [(item, styles)], [], Last.Destructive⟩ := by
  simp [destructive, flush, nonePairs]

theorem supportive_eq (b : CollapsingBuilder T S) (item : T) (styles : S) :
    supportive b item styles =
      ⟨b.builder ++ b.staged.map stagedPair ++ [(item, styles)], [], Last.Supportive⟩ := by
  simp [supportive, flush]

theorem finish_eq_kept (b : CollapsingBuilder T S) : finish b = kept b := by
  simp [finish, flush, kept, nonePairs]

theorem nonePairs_append (l l' : List (T × S × Option Nat)) :
    nonePairs (l ++ l') = nonePairs l ++ nonePairs l' := by
  simp [nonePairs, List.filter_append]

theorem nonePairs_some (l : List (T × S × Option Nat)) (item : T) (styles : S) (w : Nat) :
    nonePairs (l ++ [(item, styles, some w)]) = nonePairs l := by
  simp [nonePairs, List.filter_append]

theorem kept_weak (pcmp : T → T → Option Ordering) (b : CollapsingBuilder T S)
    (item : T) (styles : S) (weakness : Nat) :
    kept (weak pcmp b item styles weakness) = kept b := by
  by_cases h1 : b.last = Last.Destructive
  · rw [weak_of_destructive_state pcmp b item styles weakness h1]
  by_cases h2 : b.last = Last.Weak
  · cases hpos : position (contestPred pcmp item weakness) b.staged with
    | none => rw [weak_of_weak_state_lost pcmp b item styles weakness h2 hpos]
    | some i =>
        rw [weak_of_weak_state_found pcmp b item styles weakness i h2 hpos]
        show b.builder ++ nonePairs (removeAt b.staged i ++ [(item, styles, some weakness)]) =
          kept b
        rw [nonePairs_some]
        unfold kept nonePairs
        rw [filter_removeAt_of_disjoint
          (contestPred_isNone_false pcmp item weakness) b.staged i hpos]
  · have h3 : b.last = Last.Supportive := by
      cases hb : b.last <;> simp [hb] at h1 h2 ⊢
    rw [weak_of_supportive_state pcmp b item styles weakness h3]
    show b.builder ++ nonePairs (b.staged ++ [(item, styles, some weakness)]) = kept b
    rw [nonePairs_some]
    rfl

theorem kept_ignorant (b : CollapsingBuilder T S) (item : T) (styles : S) :
    kept (ignorant b item styles) = kept b ++ [(item, styles)] := by
  show b.builder ++ nonePairs (b.staged ++ [(item, styles, none)]) = kept b ++ [(item, styles)]
  rw [nonePairs_append]
  simp [kept, nonePairs, stagedPair]

theorem position_append_of_none (p : α → Bool) (l l' : List α)
    (h : position p l = none) :
    position p (l ++ l') = (position p l').map (fun n => n + l.length) := by
  induction l with
  | nil => simp [Option.map_id]
  | cons a t ih =>
      simp only [position] at h
      by_cases ha : p a = true
      · simp [ha] at h
      · simp only [ha, Bool.false_eq_true, if_false] at h
        have h' : position p t = none := by
          cases hpt : position p t with
          | none => rfl
          | some k => rw [hpt] at h; simp at h
        simp only [List.cons_append, position, ha, Bool.false_eq_true, if_false,
          List.append_eq]
        rw [ih h']
        cases position p l' with
        | none => rfl
        | some k =>
            show some (k + t.length + 1) = some (k + (a :: t).length)
            simp only [Option.some.injEq, List.length_cons]
            omega

/-! Weak-entry counting, for the at-most-one-weak invariant. -/

theorem weakCount_append_none (l : List (T × S × Option Nat)) (item : T) (styles : S) :
    weakCount (l ++ [(item, styles, none)]) = weakCount l := by
  simp [weakCount, List.filter_append]

theorem weakCount_append_some (l : List (T × S × Option Nat)) (item : T) (styles : S)
    (w : Nat) : weakCount (l ++ [(item, styles, some w)]) = weakCount l + 1 := by
  simp [weakCount, List.filter_append]

theorem weakCount_run (pcmp : T → T → Option Ordering) (b : CollapsingBuilder T S)
    (c : Cmd T S) (h1 : weakCount b.staged ≤ 1)
    (h2 : b.last ≠ Last.Weak → weakCount b.staged = 0) :
    weakCount ((run pcmp b c).staged) ≤ 1 ∧
      ((run pcmp b c).last ≠ Last.Weak → weakCount ((run pcmp b c).staged) = 0) := by
  cases c with
  | destructive item styles =>
      rw [show run pcmp b (Cmd.destructive item styles) = destructive b item styles from rfl,
        destructive_eq]
      exact ⟨Nat.le_succ 0, fun _ => rfl⟩
  | supportive item styles =>
      rw [show run pcmp b (Cmd.supportive item styles) = supportive b item styles from rfl,
        supportive_eq]
      exact ⟨Nat.le_succ 0, fun _ => rfl⟩
  | ignorant item styles =>
      show weakCount (b.staged ++ [(item, styles, none)]) ≤ 1 ∧
        (b.last ≠ Last.Weak → weakCount (b.staged ++ [(item, styles, none)]) = 0)
      rw [weakCount_append_none]
      exact ⟨h1, h2⟩
  | weak item styles weakness =>
      show weakCount ((weak pcmp b item styles weakness).staged) ≤ 1 ∧
        ((weak pcmp b item styles weakness).last ≠ Last.Weak →
          weakCount ((weak pcmp b item styles weakness).staged) = 0)
      cases hb : b.last with
      | Destructive =>
          rw [weak_of_destructive_state pcmp b item styles weakness hb]
          have h0 := h2 (by rw [hb]; intro hc; exact Last.noConfusion hc)
          exact ⟨h0 ▸ Nat.zero_le 1, fun _ => h0⟩
      | Supportive =>
          rw [weak_of_supportive_state pcmp b item styles weakness hb]
          have h0 := h2 (by rw [hb]; intro hc; exact Last.noConfusion hc)
          refine ⟨?_, fun hc => absurd rfl hc⟩
          show weakCount (b.staged ++ [(item, styles, some weakness)]) ≤ 1
          rw [weakCount_append_some, h0]
      | Weak =>
          cases hpos : position (contestPred pcmp item weakness) b.staged with
          | none =>
              rw [weak_of_weak_state_lost pcmp b item styles weakness hb hpos]
              exact ⟨h1, fun hc => absurd hb hc⟩
          | some i =>
              rw [weak_of_weak_state_found pcmp b item styles weakness i hb hpos]
              refine ⟨?_, fun hc => absurd rfl hc⟩
              show weakCount (removeAt b.staged i ++ [(item, styles, some weakness)]) ≤ 1
              rw [weakCount_append_some]
              have := length_filter_removeAt
                (contestPred_isSome pcmp item weakness) b.staged i hpos
              unfold weakCount at h1 ⊢
              omega

theorem weakCount_execFrom (pcmp : T → T → Option Ordering)
    (cmds : List (Cmd T S)) (b : CollapsingBuilder T S)
    (h1 : weakCount b.staged ≤ 1)
    (h2 : b.last ≠ Last.Weak → weakCount b.staged = 0) :
    weakCount ((execFrom pcmp b cmds).staged) ≤ 1 ∧
      ((execFrom pcmp b cmds).last ≠ Last.Weak →
        weakCount ((execFrom pcmp b cmds).staged) = 0) := by
  induction cmds generalizing b with
  | nil => exact ⟨h1, h2⟩
  | cons c cs ih =>
      have step := weakCount_run pcmp b c h1 h2
      exact ih (run pcmp b c) step.1 step.2

/-! The weak-contest projection, for transparency of ignorant items. -/

theorem weakPart_ignorant (b : CollapsingBuilder T S) (item : T) (styles : S) :
    weakPart (ignorant b item styles) = weakPart b := by
  simp [weakPart, ignorant, List.filterMap_append]

theorem weakPart_weak_ignorant (pcmp : T → T → Option Ordering)
    (b : CollapsingBuilder T S) (item newItem : T) (styles newStyles : S)
    (weakness : Nat) :
    weakPart (weak pcmp (ignorant b item styles) newItem newStyles weakness) =
      weakPart (weak pcmp b newItem newStyles weakness) := by
  have hlast : (ignorant b item styles).last = b.last := rfl
  have hne : contestPred pcmp newItem weakness ((item, styles, none) : T × S × Option Nat)
      = false := contestPred_of_none pcmp newItem weakness _ rfl
  cases hb : b.last with
  | Destructive =>
      rw [weak_of_destructive_state pcmp _ newItem newStyles weakness (hlast.trans hb),
        weak_of_destructive_state pcmp b newItem newStyles weakness hb,
        weakPart_ignorant]
  | Supportive =>
      rw [weak_of_supportive_state pcmp _ newItem newStyles weakness (hlast.trans hb),
        weak_of_supportive_state pcmp b newItem newStyles weakness hb]
      show weakPart ⟨b.builder, (b.staged ++ [(item, styles, none)]) ++
        [(newItem, newStyles, some weakness)], Last.Weak⟩ = _
      simp [weakPart, List.filterMap_append]
  | Weak =>
      cases hpos : position (contestPred pcmp newItem weakness) b.staged with
      | none =>
          have hpos' : position (contestPred pcmp newItem weakness)
              (b.staged ++ [(item, styles, none)]) = none := by
            rw [position_append_of_none _ _ _ hpos]
            simp [position, hne]
          rw [weak_of_weak_state_lost pcmp _ newItem newStyles weakness
              (hlast.trans hb) hpos',
            weak_of_weak_state_lost pcmp b newItem newStyles weakness hb hpos,
            weakPart_ignorant]
      | some i =>
          have hlt := position_lt_length _ _ _ hpos
          have hpos' : position (contestPred pcmp newItem weakness)
              (b.staged ++ [(item, styles, none)]) = some i :=
            position_append_some _ _ _ _ hpos
          rw [weak_of_weak_state_found pcmp _ newItem newStyles weakness i
              (hlast.trans hb) hpos',
            weak_of_weak_state_found pcmp b newItem newStyles weakness i hb hpos]
          show weakPart ⟨b.builder, removeAt (b.staged ++ [(item, styles, none)]) i ++
            [(newItem, newStyles, some weakness)], Last.Weak⟩ = _
          rw [removeAt_append_of_lt _ _ _ hlt]
          simp [weakPart, List.filterMap_append]

/-! Lemmas relating `kept` and `contents` to the operations. -/

theorem kept_destructive (b : CollapsingBuilder T S) (item : T) (styles : S) :
    kept (destructive b item styles) = kept b ++ [(item, styles)] := by
  rw [destructive_eq]
  simp [kept, nonePairs, List.append_assoc]

theorem kept_supportive (b : CollapsingBuilder T S) (item : T) (styles : S) :
    kept (supportive b item styles) = contents b ++ [(item, styles)] := by
  rw [supportive_eq]
  simp [kept, contents, nonePairs, List.append_assoc]

theorem kept_sublist_contents (b : CollapsingBuilder T S) :
    (kept b).Sublist (contents b) := by
  unfold kept contents nonePairs
  exact (List.Sublist.refl b.builder).append ((List.filter_sublist _).map stagedPair)

theorem mem_kept_run (pcmp : T → T → Option Ordering) (b : CollapsingBuilder T S)
    (c : Cmd T S) (x : T × S) (hx : x ∈ kept b) : x ∈ kept (run pcmp b c) := by
  cases c with
  | weak item styles weakness =>
      show x ∈ kept (weak pcmp b item styles weakness)
      rw [kept_weak]
      exact hx
  | destructive item styles =>
      show x ∈ kept (destructive b item styles)
      rw [kept_destructive]
      exact List.mem_append_left _ hx
  | supportive item styles =>
      show x ∈ kept (supportive b item styles)
      rw [kept_supportive]
      exact List.mem_append_left _ ((kept_sublist_contents b).subset hx)
  | ignorant item styles =>
      show x ∈ kept (ignorant b item styles)
      rw [kept_ignorant]
      exact List.mem_append_left _ hx

theorem mem_kept_execFrom (pcmp : T → T → Option Ordering)
    (cmds : List (Cmd T S)) (b : CollapsingBuilder T S) (x : T × S)
    (hx : x ∈ kept b) : x ∈ kept (execFrom pcmp b cmds) := by
  induction cmds generalizing b with
  | nil => exact hx
  | cons c cs ih => exact ih (run pcmp b c) (mem_kept_run pcmp b c x hx)

theorem contents_run_sublist (pcmp : T → T → Option Ordering)
    (b : CollapsingBuilder T S) (c : Cmd T S) :
    (contents (run pcmp b c)).Sublist (contents b ++ [payload c]) := by
  cases c with
  | weak item styles weakness =>
      show (contents (weak pcmp b item styles weakness)).Sublist _
      by_cases h1 : b.last = Last.Destructive
      · rw [weak_of_destructive_state pcmp b item styles weakness h1]
        exact List.sublist_append_left _ _
      by_cases h2 : b.last = Last.Weak
      · cases hpos : position (contestPred pcmp item weakness) b.staged with
        | none =>
            rw [weak_of_weak_state_lost pcmp b item styles weakness h2 hpos]
            exact List.sublist_append_left _ _
        | some i =>
            rw [weak_of_weak_state_found pcmp b item styles weakness i h2 hpos]
            show (b.builder ++ (removeAt b.staged i ++
              [(item, styles, some weakness)]).map stagedPair).Sublist _
            rw [List.map_append]
            have hsub : ((removeAt b.staged i).map stagedPair).Sublist
                (b.staged.map stagedPair) := (removeAt_sublist b.staged i).map stagedPair
            have : (b.builder ++ ((removeAt b.staged i).map stagedPair ++
                [(item, styles)])).Sublist
                  ((b.builder ++ b.staged.map stagedPair) ++ [(item, styles)]) := by
              rw [List.append_assoc]
              exact (List.Sublist.refl b.builder).append (hsub.append (List.Sublist.refl _))
            exact this
      · have h3 : b.last = Last.Supportive := by
          cases hb : b.last <;> simp [hb] at h1 h2 ⊢
        rw [weak_of_supportive_state pcmp b item styles weakness h3]
        show (b.builder ++ (b.staged ++
          [(item, styles, some weakness)]).map stagedPair).Sublist _
        rw [List.map_append, ← List.append_assoc]
        exact List.Sublist.refl _
  | destructive item styles =>
      show (contents (destructive b item styles)).Sublist _
      rw [destructive_eq]
      show (b.builder ++ nonePairs b.staged ++ [(item, styles)] ++
        List.map stagedPair []).Sublist ((b.builder ++ b.staged.map stagedPair) ++
          [(item, styles)])
      simp only [List.map_nil, List.append_nil, List.append_assoc]
      refine (List.Sublist.refl b.builder).append (List.Sublist.append ?_ (List.Sublist.refl _))
      exact (List.filter_sublist _).map stagedPair
  | supportive item styles =>
      show (contents (supportive b item styles)).Sublist _
      rw [supportive_eq]
      show (b.builder ++ b.staged.map stagedPair ++ [(item, styles)] ++
        List.map stagedPair []).Sublist _
      simp only [List.map_nil, List.append_nil]
      show (b.builder ++ b.staged.map stagedPair ++ [(item, styles)]).Sublist
        ((b.builder ++ b.staged.map stagedPair) ++ [(item, styles)])
      exact List.Sublist.refl _
  | ignorant item styles =>
      show (contents (ignorant b item styles)).Sublist _
      show (b.builder ++ (b.staged ++ [(item, styles, none)]).map stagedPair).Sublist _
      rw [List.map_append, ← List.append_assoc]
      exact List.Sublist.refl _

theorem contents_execFrom_sublist (pcmp : T → T → Option Ordering)
    (cmds : List (Cmd T S)) (b : CollapsingBuilder T S) (L : List (T × S))
    (h : (contents b).Sublist L) :
    (contents (execFrom pcmp b cmds)).Sublist (L ++ cmds.map payload) := by
  induction cmds generalizing b L with
  | nil => simpa using h
  | cons c cs ih =>
      have step : (contents (run pcmp b c)).Sublist (L ++ [payload c]) :=
        (contents_run_sublist pcmp b c).trans (h.append (List.Sublist.refl _))
      have := ih (run pcmp b c) (L ++ [payload c]) step
      simpa [List.append_assoc] using this

/-! Leading and trailing weak calls. -/

theorem execFrom_destructive_drops_weak (pcmp : T → T → Option Ordering)
    (cmds : List (Cmd T S)) (b : CollapsingBuilder T S)
    (hb : b.last = Last.Destructive)
    (h : ∀ c ∈ cmds, isWeakCmd c = true ∨ isIgnorantCmd c = true) :
    execFrom pcmp b cmds = execFrom pcmp b (cmds.filter isIgnorantCmd) := by
  induction cmds generalizing b with
  | nil => rfl
  | cons c cs ih =>
      have hc := h c (List.mem_cons_self c cs)
      cases c with
      | weak item styles weakness =>
          show execFrom pcmp (weak pcmp b item styles weakness) cs =
            execFrom pcmp b (List.filter isIgnorantCmd (Cmd.weak item styles weakness :: cs))
          rw [weak_of_destructive_state pcmp b item styles weakness hb,
            List.filter_cons_of_neg (by exact Bool.false_ne_true)]
          exact ih b hb fun x hx => h x (List.mem_cons_of_mem _ hx)
      | ignorant item styles =>
          show execFrom pcmp (ignorant b item styles) cs =
            execFrom pcmp b (List.filter isIgnorantCmd (Cmd.ignorant item styles :: cs))
          rw [List.filter_cons_of_pos (by rfl : isIgnorantCmd (Cmd.ignorant item styles) = true)]
          show _ = execFrom pcmp (ignorant b item styles) (List.filter isIgnorantCmd cs)
          exact ih (ignorant b item styles) hb fun x hx => h x (List.mem_cons_of_mem _ hx)
      | destructive item styles => simp [isWeakCmd, isIgnorantCmd] at hc
      | supportive item styles => simp [isWeakCmd, isIgnorantCmd] at hc

theorem kept_execFrom_weak_ignorant (pcmp : T → T → Option Ordering)
    (cmds : List (Cmd T S)) (b : CollapsingBuilder T S)
    (h : ∀ c ∈ cmds, isWeakCmd c = true ∨ isIgnorantCmd c = true) :
    kept (execFrom pcmp b cmds) =
      kept b ++ (cmds.filter isIgnorantCmd).map payload := by
  induction cmds generalizing b with
  | nil => simp [execFrom]
  | cons c cs ih =>
      have hc := h c (List.mem_cons_self c cs)
      cases c with
      | weak item styles weakness =>
          show kept (execFrom pcmp (weak pcmp b item styles weakness) cs) = _
          rw [ih (weak pcmp b item styles weakness)
              fun x hx => h x (List.mem_cons_of_mem _ hx),
            kept_weak, List.filter_cons_of_neg (by exact Bool.false_ne_true)]
      | ignorant item styles =>
          show kept (execFrom pcmp (ignorant b item styles) cs) = _
          rw [ih (ignorant b item styles) fun x hx => h x (List.mem_cons_of_mem _ hx),
            kept_ignorant, List.filter_cons_of_pos (by rfl : isIgnorantCmd (Cmd.ignorant item styles) = true)]
          simp [payload, List.append_assoc]
      | destructive item styles => simp [isWeakCmd, isIgnorantCmd] at hc
      | supportive item styles => simp [isWeakCmd, isIgnorantCmd] at hc

/-! Locating the unique staged weak entry during a contest. -/

theorem position_staged_pivot (pcmp : T → T → Option Ordering) (item : T)
    (weakness : Nat) (pre post : List (T × S × Option Nat)) (e : T × S × Option Nat)
    (hpre : ∀ x ∈ pre, x.2.2 = none)
    (hp : contestPred pcmp item weakness e = true) :
    position (contestPred pcmp item weakness) (pre ++ e :: post) = some pre.length := by
  rw [position_append_left _ _ _
    (fun x hx => contestPred_of_none pcmp item weakness x (hpre x hx))]
  simp [position, hp]

theorem position_staged_none (pcmp : T → T → Option Ordering) (item : T)
    (weakness : Nat) (pre post : List (T × S × Option Nat)) (e : T × S × Option Nat)
    (hpre : ∀ x ∈ pre, x.2.2 = none) (hpost : ∀ x ∈ post, x.2.2 = none)
    (hp : contestPred pcmp item weakness e = false) :
    position (contestPred pcmp item weakness) (pre ++ e :: post) = none := by
  rw [position_append_left _ _ _
    (fun x hx => contestPred_of_none pcmp item weakness x (hpre x hx))]
  simp [position, hp,
    position_eq_none _ post
      (fun x hx => contestPred_of_none pcmp item weakness x (hpost x hx))]

/-! The claims. -/

/-- C1: when the classification state is `Weak` and the staging buffer
holds a single weak entry `(prevItem, prevStyles, some prevWeakness)`
among arbitrary ignorant entries, `weak item styles weakness` displaces
the staged weak entry if and only if the new strength is numerically
smaller, or the strengths are equal and the new item compares strictly
greater under the partial ordering; on displacement the staged entry is
removed and the new item is staged with its strength, otherwise the
builder, the staging buffer and the classification state are all left
unchanged. -/
theorem weak_in_weak_state_spec (pcmp : T → T → Option Ordering)
    (b : CollapsingBuilder T S) (item : T) (styles : S) (weakness : Nat)
    (pre post : List (T × S × Option Nat)) (prevItem : T) (prevStyles : S)
    (prevWeakness : Nat)
    (hlast : b.last = Last.Weak)
    (hstaged : b.staged = pre ++ (prevItem, prevStyles, some prevWeakness) :: post)
    (hpre : ∀ e ∈ pre, e.2.2 = none) (hpost : ∀ e ∈ post, e.2.2 = none) :
    (weakness < prevWeakness ∨
        (weakness = prevWeakness ∧ pcmp item prevItem = some Ordering.gt) →
      weak pcmp b item styles weakness =
        ⟨b.builder, (pre ++ post) ++ [(item, styles, some weakness)], Last.Weak⟩) ∧
    (¬(weakness < prevWeakness ∨
        (weakness = prevWeakness ∧ pcmp item prevItem = some Ordering.gt)) →
      weak pcmp b item styles weakness = b) := by
  constructor
  · intro hcond
    have hp : contestPred pcmp item weakness
        ((prevItem, prevStyles, some prevWeakness) : T × S × Option Nat) = true := by
      simp only [contestPred, decide_eq_true_eq]
      exact hcond
    have hpos : position (contestPred pcmp item weakness) b.staged = some pre.length := by
      rw [hstaged]
      exact position_staged_pivot pcmp item weakness pre post _ hpre hp
    rw [weak_of_weak_state_found pcmp b item styles weakness pre.length hlast hpos,
      hstaged, removeAt_at_pivot]
  · intro hcond
    have hp : contestPred pcmp item weakness
        ((prevItem, prevStyles, some prevWeakness) : T × S × Option Nat) = false := by
      simp only [contestPred, decide_eq_false_iff_not]
      exact hcond
    have hpos : position (contestPred pcmp item weakness) b.staged = none := by
      rw [hstaged]
      exact position_staged_none pcmp item weakness pre post _ hpre hpost hp
    exact weak_of_weak_state_lost pcmp b item styles weakness hlast hpos

/-- Witness for C1: a concrete equal-strength contest where the new item
compares strictly greater displaces the staged weak entry. -/
theorem weak_in_weak_state_spec_witness :
    weak itemCmp
        ⟨[(Item.node 1, ())], [(Item.space 10, (), some 0)], Last.Weak⟩
        (Item.space 20) () 0 =
      ⟨[(Item.node 1, ())], [(Item.space 20, (), some 0)], Last.Weak⟩ := by
  have h := weak_in_weak_state_spec itemCmp
    ⟨[(Item.node 1, ())], [(Item.space 10, (), some 0)], Last.Weak⟩
    (Item.space 20) () 0 [] [] (Item.space 10) () 0 rfl rfl
    (fun e he => absurd he (List.not_mem_nil e))
    (fun e he => absurd he (List.not_mem_nil e))
  exact h.1 (Or.inr ⟨rfl, by decide⟩)

/-- C2: the end-to-end scenario of the spec (and of the test
`test_collapsing_weak`): the given call sequence followed by `finish`
produces exactly the six retained items, with `Space20 > Space10` under
the item ordering. -/
theorem concrete_scenario :
    finish (exec itemCmp
      [Cmd.weak Item.brk () 0,
       Cmd.supportive (Item.node 1) (),
       Cmd.weak (Item.space 10) () 0,
       Cmd.ignorant Item.brk (),
       Cmd.weak (Item.space 20) () 0,
       Cmd.supportive (Item.node 2) (),
       Cmd.weak (Item.space 10) () 0,
       Cmd.weak (Item.space 20) () 1,
       Cmd.supportive (Item.node 3) ()]) =
      [(Item.node 1, ()), (Item.brk, ()), (Item.space 20, ()),
       (Item.node 2, ()), (Item.space 10, ()), (Item.node 3, ())] ∧
    itemCmp (Item.space 20) (Item.space 10) = some Ordering.gt := by
  decide

/-- C3: in every state reachable from a fresh engine, at most one staged
entry carries a `some` strength marker, and running one more operation
preserves this bound. -/
theorem staged_at_most_one_weak (pcmp : T → T → Option Ordering)
    (cmds : List (Cmd T S)) :
    weakCount ((exec pcmp cmds).staged) ≤ 1 ∧
      ∀ c : Cmd T S, weakCount ((run pcmp (exec pcmp cmds) c).staged) ≤ 1 := by
  have h := weakCount_execFrom pcmp cmds (new T S) (Nat.zero_le 1) (fun _ => rfl)
  exact ⟨h.1, fun c => (weakCount_run pcmp _ c h.1 h.2).1⟩

/-- C4: from a fresh engine (state `Destructive`), weak calls made before
the first supportive or destructive call are dropped without any state
change: deleting them from the leading segment leaves the run
unchanged. -/
theorem leading_weak_collapse (pcmp : T → T → Option Ordering)
    (pre rest : List (Cmd T S))
    (h : ∀ c ∈ pre, isWeakCmd c = true ∨ isIgnorantCmd c = true) :
    exec pcmp (pre ++ rest) = exec pcmp (pre.filter isIgnorantCmd ++ rest) := by
  unfold exec execFrom
  rw [List.foldl_append, List.foldl_append]
  have h' := execFrom_destructive_drops_weak pcmp pre (new T S) rfl h
  unfold execFrom at h'
  rw [h']

/-- Witness for C4: a concrete leading weak call contributes nothing. -/
theorem leading_weak_collapse_witness :
    exec itemCmp ([Cmd.weak (Item.space 10) () 0, Cmd.ignorant Item.brk ()] ++
        [Cmd.supportive (Item.node 1) ()]) =
      exec itemCmp
        (List.filter isIgnorantCmd
          [Cmd.weak (Item.space 10) () 0, Cmd.ignorant Item.brk ()] ++
          [Cmd.supportive (Item.node 1) ()]) :=
  leading_weak_collapse itemCmp
    [Cmd.weak (Item.space 10) () 0, Cmd.ignorant Item.brk ()]
    [Cmd.supportive (Item.node 1) ()] (by decide)

/-- C5: `finish` flushes the staging buffer keeping only the ignorant
entries (discarding any weak entry) into the builder, and trailing weak
calls — weak calls after the last supportive or destructive call,
immediately before `finish` — contribute nothing to the finished
sequence. -/
theorem finish_trailing_weak (pcmp : T → T → Option Ordering) :
    (∀ b : CollapsingBuilder T S, finish b = b.builder ++ nonePairs b.staged) ∧
    ∀ (b : CollapsingBuilder T S) (cmds : List (Cmd T S)),
      (∀ c ∈ cmds, isWeakCmd c = true ∨ isIgnorantCmd c = true) →
        finish (execFrom pcmp b cmds) =
          finish (execFrom pcmp b (cmds.filter isIgnorantCmd)) := by
  refine ⟨fun b => finish_eq_kept b, fun b cmds h => ?_⟩
  rw [finish_eq_kept, finish_eq_kept, kept_execFrom_weak_ignorant pcmp cmds b h,
    kept_execFrom_weak_ignorant pcmp (cmds.filter isIgnorantCmd) b
      (fun c hc => Or.inr (List.mem_filter.mp hc).2)]
  rw [List.filter_filter]
  simp

/-- Witness for C5: a concrete trailing weak call contributes nothing to
the finished sequence. -/
theorem finish_trailing_weak_witness :
    finish (execFrom itemCmp (supportive (new Item Unit) (Item.node 1) ())
        [Cmd.weak (Item.space 5) () 0, Cmd.ignorant Item.brk ()]) =
      finish (execFrom itemCmp (supportive (new Item Unit) (Item.node 1) ())
        (List.filter isIgnorantCmd
          [Cmd.weak (Item.space 5) () 0, Cmd.ignorant Item.brk ()])) :=
  (finish_trailing_weak itemCmp).2 (supportive (new Item Unit) (Item.node 1) ())
    [Cmd.weak (Item.space 5) () 0, Cmd.ignorant Item.brk ()] (by decide)

/-- C6: `destructive` flushes the staging buffer keeping only the
ignorant entries, commits its own item, and sets the state to
`Destructive`; concretely, `supportive(A); weak(S, 0); destructive(B);
finish()` yields exactly `[A, B]`. -/
theorem destructive_cancels_weak :
    (∀ (T S : Type) (b : CollapsingBuilder T S) (item : T) (styles : S),
      destructive b item styles =
        ⟨b.builder ++ nonePairs b.staged ++ [(item, styles)], [],
          Last.Destructive⟩) ∧
    finish (exec itemCmp [Cmd.supportive (Item.node 1) (),
        Cmd.weak (Item.space 5) () 0, Cmd.destructive Item.brk ()]) =
      [(Item.node 1, ()), (Item.brk, ())] :=
  ⟨fun _ _ b item styles => destructive_eq b item styles, by decide⟩

/-- C7: `supportive` flushes every staged entry, weak and ignorant alike,
into the builder in their original relative order, commits its own item,
and sets the state to `Supportive`; concretely, `supportive(A);
weak(S, 0); supportive(B); finish()` yields exactly `[A, S, B]`. -/
theorem supportive_preserves_weak :
    (∀ (T S : Type) (b : CollapsingBuilder T S) (item : T) (styles : S),
      supportive b item styles =
        ⟨b.builder ++ b.staged.map stagedPair ++ [(item, styles)], [],
          Last.Supportive⟩) ∧
    finish (exec itemCmp [Cmd.supportive (Item.node 1) (),
        Cmd.weak (Item.space 5) () 0, Cmd.supportive (Item.node 2) ()]) =
      [(Item.node 1, ()), (Item.space 5, ()), (Item.node 2, ())] :=
  ⟨fun _ _ b item styles => supportive_eq b item styles, by decide⟩

/-- C8: `ignorant` always stages its entry with a `none` marker, changing
neither the committed items nor the classification state; the weak
contest behaves exactly as if the ignorant call had been omitted (the
contest-relevant projection of a `weak` call is unchanged by a preceding
`ignorant` call); an ignorant item is present in the finished sequence
after any continuation; and in the spec's scenario the same weak winner
survives with and without the interleaved ignorant item, positioned by
arrival order. -/
theorem ignorant_spec :
    (∀ (T S : Type) (b : CollapsingBuilder T S) (item : T) (styles : S),
      ignorant b item styles =
        ⟨b.builder, b.staged ++ [(item, styles, none)], b.last⟩) ∧
    (∀ (T S : Type) (pcmp : T → T → Option Ordering) (b : CollapsingBuilder T S)
      (item newItem : T) (styles newStyles : S) (weakness : Nat),
      weakPart (weak pcmp (ignorant b item styles) newItem newStyles weakness) =
        weakPart (weak pcmp b newItem newStyles weakness)) ∧
    (∀ (T S : Type) (pcmp : T → T → Option Ordering) (b : CollapsingBuilder T S)
      (item : T) (styles : S) (cmds : List (Cmd T S)),
      (item, styles) ∈ finish (execFrom pcmp (ignorant b item styles) cmds)) ∧
    finish (exec itemCmp [Cmd.supportive (Item.node 1) (),
        Cmd.weak (Item.space 10) () 0, Cmd.ignorant Item.brk (),
        Cmd.weak (Item.space 20) () 0, Cmd.supportive (Item.node 2) ()]) =
      [(Item.node 1, ()), (Item.brk, ()), (Item.space 20, ()),
        (Item.node 2, ())] ∧
    finish (exec itemCmp [Cmd.supportive (Item.node 1) (),
        Cmd.weak (Item.space 10) () 0,
        Cmd.weak (Item.space 20) () 0, Cmd.supportive (Item.node 2) ()]) =
      [(Item.node 1, ()), (Item.space 20, ()), (Item.node 2, ())] := by
  refine ⟨fun _ _ b item styles => rfl,
    fun _ _ pcmp b item newItem styles newStyles weakness =>
      weakPart_weak_ignorant pcmp b item newItem styles newStyles weakness,
    fun _ _ pcmp b item styles cmds => ?_, by decide, by decide⟩
  rw [finish_eq_kept]
  refine mem_kept_execFrom pcmp cmds (ignorant b item styles) (item, styles) ?_
  rw [kept_ignorant]
  exact List.mem_append_right _ (List.mem_singleton.mpr rfl)

/-- C9: for every call sequence, the finished sequence is a sublist of
the submitted `(item, style)` pairs in call order: the engine only
deletes items and never reorders them. -/
theorem order_preservation (pcmp : T → T → Option Ordering)
    (cmds : List (Cmd T S)) :
    (finish (exec pcmp cmds)).Sublist (cmds.map payload) := by
  rw [finish_eq_kept]
  have h := contents_execFrom_sublist pcmp cmds (new T S) []
    (List.Sublist.refl [])
  simp only [List.nil_append] at h
  exact (kept_sublist_contents _).trans h

/-- C10: in classification state `Weak` with a single staged weak entry
of strength `prevWeakness`, a `weak` call with the same strength whose
item is not strictly greater than the staged item — including equal or
incomparable items — is dropped and the engine is left unchanged, so the
incumbent wins every tie that is not a strict loss. -/
theorem weak_tie_incumbent_wins (pcmp : T → T → Option Ordering)
    (b : CollapsingBuilder T S) (item : T) (styles : S)
    (pre post : List (T × S × Option Nat)) (prevItem : T) (prevStyles : S)
    (prevWeakness : Nat)
    (hlast : b.last = Last.Weak)
    (hstaged : b.staged = pre ++ (prevItem, prevStyles, some prevWeakness) :: post)
    (hpre : ∀ e ∈ pre, e.2.2 = none) (hpost : ∀ e ∈ post, e.2.2 = none)
    (hngt : ¬pcmp item prevItem = some Ordering.gt) :
    weak pcmp b item styles prevWeakness = b := by
  have hp : contestPred pcmp item prevWeakness
      ((prevItem, prevStyles, some prevWeakness) : T × S × Option Nat) = false := by
    simp only [contestPred, decide_eq_false_iff_not]
    rintro (hlt | ⟨-, hgt⟩)
    · exact absurd hlt (Nat.lt_irrefl prevWeakness)
    · exact hngt hgt
  have hpos : position (contestPred pcmp item prevWeakness) b.staged = none := by
    rw [hstaged]
    exact position_staged_none pcmp item prevWeakness pre post _ hpre hpost hp
  exact weak_of_weak_state_lost pcmp b item styles prevWeakness hlast hpos

/-- Witness for C10: a concrete incomparable challenger (a break against
a spacing amount) at equal strength is dropped and the incumbent stays. -/
theorem weak_tie_incumbent_wins_witness :
    weak itemCmp
        ⟨[(Item.node 1, ())], [(Item.space 10, (), some 2)], Last.Weak⟩
        Item.brk () 2 =
      ⟨[(Item.node 1, ())], [(Item.space 10, (), some 2)], Last.Weak⟩ :=
  weak_tie_incumbent_wins itemCmp
    ⟨[(Item.node 1, ())], [(Item.space 10, (), some 2)], Last.Weak⟩
    Item.brk () [] [] (Item.space 10) () 2 rfl rfl
    (fun e he => absurd he (List.not_mem_nil e))
    (fun e he => absurd he (List.not_mem_nil e))
    (by decide)

end Collapse
